import Mathlib

/-!
Verification of the bayesvp repository's parameter-linkage model and its
convergence / model-selection engine (src/Config.py, src/Utilities.py)
against the natural-language specification.

Shallow-embedding conventions used throughout this development:
- numpy floating-point scalars and arrays are modelled over the rationals,
  except where the source applies a transcendental logarithm (np.log), in
  which case the reals and Real.log are used;
- a Python function that can terminate the process (print followed by
  exit()) is modelled in Except String, the exit branch being Except.error;
  a Python function that can fall through and return the implicit None is
  modelled with an Option in its result;
- a numpy array of shape (a, b, c) is modelled either as nested lists or
  as an index function together with explicit dimensions.
-/

namespace BayesVP

/-- Model of Python str.lower for the ASCII configuration tokens used by
the model-selection code. -/
def py_lower (s : String) : String := String.mk (s.data.map Char.toLower)

/-- Embedding of Utilities.compare_model.  The source returns True or
False from one of its two recognized-token branches and otherwise falls
through, returning the implicit Python None (modelled as Option.none);
no branch of the source terminates the process, so every branch of the
embedding is Except.ok. -/
def compare_model (L1 L2 : ℚ) (model_selection : String) :
    Except String (Option Bool) :=
  if model_selection = "bic" ∨ model_selection = "aic" then
    Except.ok (some (decide (L1 ≤ L2)))
  else if model_selection = "odds" ∨ model_selection = "BF" ∨
      model_selection = "bf" then
    Except.ok (some (decide (L1 - L2 ≥ 0)))
  else
    Except.ok none

/-- Embedding of Utilities.model_info_criterion.  The posterior machinery
is abstracted into arguments: bf_value stands for the value of
local_density_bf(obs_spec_obj), lnL for the natural log-likelihood
evaluated at the per-parameter posterior medians, n_params for the
parameter count of the loaded chain and data_length for
len(obs_spec_obj.flux).  The aic branch reproduces the source expression
-2*lnL + 2*n_params + 2*n_params*(n_params+1)/(np.log(data_length) -
n_params - 1) and the bic branch -2*lnL + n_params*np.log(data_length);
the final print-and-exit branch is Except.error. -/
noncomputable def model_info_criterion (bf_value lnL : ℝ)
    (n_params data_length : ℕ) (model_selection : String) :
    Except String ℝ :=
  if py_lower model_selection = "odds" ∨ py_lower model_selection = "bf" then
    Except.ok bf_value
  else if py_lower model_selection = "aic" then
    Except.ok (-2 * lnL + 2 * n_params +
      2 * n_params * (n_params + 1) / (Real.log data_length - n_params - 1))
  else if py_lower model_selection = "bic" then
    Except.ok (-2 * lnL + n_params * Real.log data_length)
  else
    Except.error "model_selection is not defined to either be aic or bic"

/-- C1: at the spec's own check point lnL = -50, k = 3, n = 1000 the bic
branch returns -2·lnL + k·ln n exactly as the claim states, but the aic
branch does not return -2·lnL + 2k + 2k(k+1)/(n - k - 1): the source
divides the small-sample correction by np.log(data_length) - n_params - 1,
so the denominator is ln(n) - k - 1 instead of the claimed n - k - 1. -/
theorem model_info_criterion_aic_denominator_bug :
    model_info_criterion 0 (-50) 3 1000 "bic"
      = Except.ok (-2 * (-50) + 3 * Real.log 1000) ∧
    model_info_criterion 0 (-50) 3 1000 "aic"
      = Except.ok (-2 * (-50) + 2 * 3 +
          2 * 3 * (3 + 1) / (Real.log 1000 - 3 - 1)) ∧
    model_info_criterion 0 (-50) 3 1000 "aic"
      ≠ Except.ok (-2 * (-50) + 2 * 3 +
          2 * 3 * (3 + 1) / ((1000 : ℝ) - 3 - 1)) := by
  have hlog : Real.log 1000 < 999 := by
    have h1 := Real.log_lt_sub_one_of_pos
      (show (0:ℝ) < 1000 by norm_num) (show (1000:ℝ) ≠ 1 by norm_num)
    linarith
  refine ⟨?_, ?_, ?_⟩
  · unfold model_info_criterion
    rw [if_neg (by decide), if_neg (by decide), if_pos (by decide)]
    norm_num
  · unfold model_info_criterion
    rw [if_neg (by decide), if_pos (by decide)]
    norm_num
  · unfold model_info_criterion
    rw [if_neg (by decide), if_pos (by decide)]
    intro h
    have h2 := Except.ok.inj h
    push_cast at h2
    have h3 : 2 * 3 * ((3:ℝ) + 1) / (Real.log 1000 - 3 - 1)
        = 2 * 3 * ((3:ℝ) + 1) / ((1000:ℝ) - 3 - 1) := by linarith
    rcases le_or_lt (Real.log 1000 - 3 - 1) 0 with ht | ht
    · have hle : 2 * 3 * ((3:ℝ) + 1) / (Real.log 1000 - 3 - 1) ≤ 0 :=
        div_nonpos_of_nonneg_of_nonpos (by norm_num) ht
      rw [h3] at hle
      norm_num at hle
    · have hlt : Real.log 1000 - 3 - 1 < (1000:ℝ) - 3 - 1 := by linarith
      have hstrict : 2 * 3 * ((3:ℝ) + 1) / ((1000:ℝ) - 3 - 1)
          < 2 * 3 * ((3:ℝ) + 1) / (Real.log 1000 - 3 - 1) :=
        div_lt_div_of_pos_left (by norm_num) ht hlt
      rw [h3] at hstrict
      exact absurd hstrict (lt_irrefl _)

/-- C8 counterexample: the token AIC is the recognized criterion aic
supplied in upper case, and 1 ≤ 2 holds, yet compare_model does not return
True: the source's membership tests are case sensitive, so the call falls
through and returns the implicit Python None. -/
theorem compare_model_case_sensitive_cex :
    (1 : ℚ) ≤ 2 ∧ compare_model 1 2 "AIC" = Except.ok none :=
  ⟨by norm_num, rfl⟩

/-- C8 amended: compare_model recognizes its tokens case sensitively.  For
the literal tokens bic and aic it returns True exactly when L1 ≤ L2, for
the literal tokens odds, BF and bf it returns True exactly when
L1 - L2 ≥ 0, and every other spelling (including AIC, BIC, Odds, ODDS)
falls through to the implicit Python None. -/
theorem compare_model_recognized_tokens (L1 L2 : ℚ) :
    compare_model L1 L2 "aic" = Except.ok (some (decide (L1 ≤ L2))) ∧
    compare_model L1 L2 "bic" = Except.ok (some (decide (L1 ≤ L2))) ∧
    compare_model L1 L2 "odds" = Except.ok (some (decide (L1 - L2 ≥ 0))) ∧
    compare_model L1 L2 "BF" = Except.ok (some (decide (L1 - L2 ≥ 0))) ∧
    compare_model L1 L2 "bf" = Except.ok (some (decide (L1 - L2 ≥ 0))) :=
  ⟨rfl, rfl, rfl, rfl, rfl⟩

/-- C9 counterexample: foo is a token outside the recognized set
{aic, bic, odds, bf} in any letter case, yet the comparison path does not
fail with a fatal error: compare_model returns normally with the implicit
Python None, so the run continues. -/
theorem compare_model_unrecognized_silent_cex :
    (py_lower "foo" ≠ "aic" ∧ py_lower "foo" ≠ "bic" ∧
     py_lower "foo" ≠ "odds" ∧ py_lower "foo" ≠ "bf") ∧
    compare_model 1 2 "foo" = Except.ok none ∧
    (compare_model 1 2 "foo").isOk = true :=
  ⟨by decide, rfl, rfl⟩

/-- C9 amended: for every criterion token outside the case-insensitive
recognized set {aic, bic, odds, bf}, the score path
(model_info_criterion) terminates the run with a fatal error message and
produces no score, while the comparison path (compare_model) produces no
comparison result but returns silently (the implicit Python None) rather
than failing fatally. -/
theorem unrecognized_selection_token (bf_value lnL : ℝ)
    (n_params data_length : ℕ) (L1 L2 : ℚ) (s : String)
    (h1 : py_lower s ≠ "odds") (h2 : py_lower s ≠ "bf")
    (h3 : py_lower s ≠ "aic") (h4 : py_lower s ≠ "bic") :
    model_info_criterion bf_value lnL n_params data_length s
      = Except.error "model_selection is not defined to either be aic or bic" ∧
    compare_model L1 L2 s = Except.ok none := by
  constructor
  · unfold model_info_criterion
    rw [if_neg ?_, if_neg h3, if_neg h4]
    rintro (h | h)
    · exact h1 h
    · exact h2 h
  · unfold compare_model
    rw [if_neg ?_, if_neg ?_]
    · rintro (h | h | h)
      · exact h1 (by rw [h]; decide)
      · exact h2 (by rw [h]; decide)
      · exact h2 (by rw [h]; decide)
    · rintro (h | h)
      · exact h4 (by rw [h]; decide)
      · exact h3 (by rw [h]; decide)

/-- C9 witness: the amended theorem applied at the concrete unrecognized
token xyz. -/
theorem unrecognized_selection_token_witness :
    (py_lower "xyz" ≠ "odds" ∧ py_lower "xyz" ≠ "bf" ∧
     py_lower "xyz" ≠ "aic" ∧ py_lower "xyz" ≠ "bic") ∧
    (model_info_criterion 0 0 0 0 "xyz"
      = Except.error "model_selection is not defined to either be aic or bic" ∧
     compare_model 0 0 "xyz" = Except.ok none) :=
  ⟨by decide,
   unrecognized_selection_token 0 0 0 0 0 0 "xyz"
     (by decide) (by decide) (by decide) (by decide)⟩

/-- Maximum of a list of rationals, as np.max on a nonempty array; the
source never applies it to an empty array, and the empty case is given the
junk value 0. -/
def np_max (l : List ℚ) : ℚ :=
  match l with
  | [] => 0
  | h :: t => t.foldl max h

/-- Truncation toward zero, as Python int() applied to a float. -/
def py_int (q : ℚ) : Int := if 0 ≤ q then ⌊q⌋ else -⌊-q⌋

/-- Index of the first entry satisfying the predicate, as np.argmax does
on the boolean array obtained from an elementwise comparison: np.argmax
returns the index of the first True and, when every entry is False, the
index 0 (recovered below with getD 0). -/
def first_sat_index (p : ℚ → Bool) : List ℚ → Option ℕ
  | [] => none
  | x :: t => if p x then some 0 else (first_sat_index p t).map (· + 1)

/-- Embedding of Utilities.compute_burin_GR.  The file contents are
abstracted into the columns np.loadtxt(gr_fname, unpack=True) produces:
steps is the first row (the step-number column) and grs the remaining
rows, one per model parameter.  The source computes
indices = np.argmax(grs <= gr_threshold, axis=1) and returns
int(np.max(steps[indices])). -/
def compute_burin_GR (steps : List ℚ) (grs : List (List ℚ))
    (gr_threshold : ℚ) : Int :=
  py_int (np_max ((grs.map (fun row =>
    (first_sat_index (fun x => decide (x ≤ gr_threshold)) row).getD 0)).map
      (fun i => steps.getD i 0)))

theorem le_foldl_max (l : List ℚ) (a : ℚ) : a ≤ l.foldl max a := by
  induction l generalizing a with
  | nil => exact le_refl a
  | cons h t ih => exact le_trans (le_max_left a h) (ih (max a h))

theorem le_foldl_max_of_mem :
    ∀ (l : List ℚ) (a x : ℚ), x ∈ l → x ≤ l.foldl max a
  | [], _, x, hx => absurd hx (List.not_mem_nil x)
  | h :: t, a, x, hx => by
    rcases List.mem_cons.mp hx with rfl | hm
    · exact le_trans (le_max_right a x) (le_foldl_max t (max a x))
    · exact le_foldl_max_of_mem t (max a h) x hm

theorem foldl_max_mem (l : List ℚ) (a : ℚ) :
    l.foldl max a = a ∨ l.foldl max a ∈ l := by
  induction l generalizing a with
  | nil => exact Or.inl rfl
  | cons h t ih =>
    rcases ih (max a h) with heq | hm
    · rcases max_choice a h with hc | hc
      · exact Or.inl (by rw [List.foldl_cons, heq, hc])
      · exact Or.inr (by
          rw [List.foldl_cons, heq, hc]
          exact List.mem_cons_self h t)
    · exact Or.inr (List.mem_cons_of_mem h hm)

theorem np_max_mem {l : List ℚ} (h : l ≠ []) : np_max l ∈ l := by
  match l with
  | [] => exact absurd rfl h
  | x :: t =>
    rcases foldl_max_mem t x with heq | hm
    · rw [np_max, heq]
      exact List.mem_cons_self x t
    · exact List.mem_cons_of_mem x hm

theorem le_np_max {l : List ℚ} {x : ℚ} (hx : x ∈ l) : x ≤ np_max l := by
  match l with
  | [] => cases hx
  | a :: t =>
    rcases List.mem_cons.mp hx with rfl | hm
    · exact le_foldl_max t x
    · exact le_foldl_max_of_mem t a x hm

theorem py_int_den_one {q : ℚ} (h : q.den = 1) : ((py_int q : ℤ) : ℚ) = q := by
  have hq : ((q.num : ℤ) : ℚ) = q := by
    have hnd := Rat.num_div_den q
    rw [h] at hnd
    simpa using hnd
  have hv : py_int q = q.num := by
    unfold py_int
    split
    · rw [← hq, Int.floor_intCast, Rat.num_intCast]
    · rw [← hq, ← Int.cast_neg, Int.floor_intCast, neg_neg, Rat.num_intCast]
  rw [hv, hq]

theorem first_sat_index_isSome {p : ℚ → Bool} {l : List ℚ}
    (h : ∃ x ∈ l, p x = true) :
    ∃ i, first_sat_index p l = some i ∧ i < l.length := by
  induction l with
  | nil =>
    rcases h with ⟨x, hx, _⟩
    cases hx
  | cons a t ih =>
    by_cases ha : p a = true
    · exact ⟨0, by rw [first_sat_index, if_pos ha], Nat.succ_pos _⟩
    · have hex : ∃ x ∈ t, p x = true := by
        rcases h with ⟨x, hx, hpx⟩
        rcases List.mem_cons.mp hx with rfl | hm
        · exact absurd hpx ha
        · exact ⟨x, hm, hpx⟩
      rcases ih hex with ⟨i, hi, hlt⟩
      refine ⟨i + 1, ?_, Nat.succ_lt_succ hlt⟩
      rw [first_sat_index, if_neg ha, hi]
      rfl

theorem getD_mem_or_default (l : List ℚ) (i : ℕ) (d : ℚ) :
    l.getD i d ∈ l ∨ l.getD i d = d := by
  rcases lt_or_ge i l.length with hlt | hge
  · left
    rw [List.getD_eq_getElem l d hlt]
    exact List.getElem_mem hlt
  · right
    exact List.getD_eq_default l d hge

/-- Step value of the first trajectory entry at or below the threshold:
the spec's "step at which that parameter's R first satisfies
R ≤ threshold", or none when the parameter never reaches it. -/
def first_cross_step (steps : List ℚ) (thr : ℚ) (row : List ℚ) : Option ℚ :=
  (first_sat_index (fun x => decide (x ≤ thr)) row).map (fun i => steps.getD i 0)

/-- C2: on a Gelman-Rubin trajectory file (step column plus one R row per
parameter, rows as long as the step column, integer step values) in which
every parameter reaches the threshold at some step, compute_burin_GR
returns exactly the maximum, over the parameters, of the step at which
that parameter's R first satisfies R ≤ threshold. -/
theorem compute_burin_GR_eq_max_first_cross
    (steps : List ℚ) (grs : List (List ℚ)) (thr : ℚ)
    (hne : grs ≠ [])
    (_hlen : ∀ row ∈ grs, row.length = steps.length)
    (hden : ∀ s ∈ steps, s.den = 1)
    (hconv : ∀ row ∈ grs, ∃ x ∈ row, x ≤ thr) :
    ∃ cross : List ℚ,
      List.Forall₂ (fun row s => first_cross_step steps thr row = some s)
        grs cross ∧
      (∀ s ∈ cross, s ≤ np_max cross) ∧ np_max cross ∈ cross ∧
      ((compute_burin_GR steps grs thr : ℤ) : ℚ) = np_max cross := by
  set p : ℚ → Bool := fun x => decide (x ≤ thr) with hp
  set f : List ℚ → ℚ := fun row => steps.getD ((first_sat_index p row).getD 0) 0
    with hf
  have hcross : ∀ row ∈ grs, first_cross_step steps thr row = some (f row) := by
    intro row hrow
    have hex : ∃ x ∈ row, p x = true := by
      rcases hconv row hrow with ⟨x, hx, hxle⟩
      exact ⟨x, hx, by simpa [hp] using hxle⟩
    rcases first_sat_index_isSome hex with ⟨i, hi, _⟩
    rw [first_cross_step, hi, hf]
    simp [hi]
  have hmapne : grs.map f ≠ [] := by
    intro hmap
    exact hne (List.map_eq_nil_iff.mp hmap)
  refine ⟨grs.map f, ?_, ?_, np_max_mem hmapne, ?_⟩
  · rw [List.forall₂_map_right_iff]
    rw [List.forall₂_same]
    intro row hrow
    exact hcross row hrow
  · intro s hs
    exact le_np_max hs
  · have hden2 : ∀ x ∈ grs.map f, x.den = 1 := by
      intro x hx
      rcases List.mem_map.mp hx with ⟨row, _, rfl⟩
      rcases getD_mem_or_default steps ((first_sat_index p row).getD 0) 0 with
        hmem | hdef
      · exact hden _ hmem
      · have hfr : f row = 0 := hdef
        rw [hfr]
        rfl
    have hcomp : compute_burin_GR steps grs thr = py_int (np_max (grs.map f)) := by
      unfold compute_burin_GR
      rw [List.map_map]
      rfl
    rw [hcomp]
    exact py_int_den_one (hden2 _ (np_max_mem hmapne))

/-- C2 witness: a trajectory where parameter A first crosses at step 100
and parameter B first crosses at step 250 satisfies the hypotheses, and
the theorem applies; in particular the burn-in is 250. -/
theorem compute_burin_GR_eq_max_first_cross_witness :
    (([[(1:ℚ), 2], [2, 1]] : List (List ℚ)) ≠ [] ∧
     (∀ row ∈ ([[(1:ℚ), 2], [2, 1]] : List (List ℚ)),
       row.length = ([100, 250] : List ℚ).length) ∧
     (∀ s ∈ ([100, 250] : List ℚ), s.den = 1) ∧
     (∀ row ∈ ([[(1:ℚ), 2], [2, 1]] : List (List ℚ)), ∃ x ∈ row, x ≤ 1)) ∧
    (∃ cross : List ℚ,
      List.Forall₂
        (fun row s => first_cross_step [100, 250] 1 row = some s)
        [[(1:ℚ), 2], [2, 1]] cross ∧
      (∀ s ∈ cross, s ≤ np_max cross) ∧ np_max cross ∈ cross ∧
      ((compute_burin_GR [100, 250] [[(1:ℚ), 2], [2, 1]] 1 : ℤ) : ℚ)
        = np_max cross) :=
  ⟨⟨by decide, by decide, by decide, by decide⟩,
   compute_burin_GR_eq_max_first_cross [100, 250] [[1, 2], [2, 1]] 1
     (by decide) (by decide) (by decide) (by decide)⟩

/-- C3: on a trajectory where the second parameter never reaches the
threshold at any recorded step, compute_burin_GR does not detect or
report a failure: np.argmax yields index 0 for that parameter, steps[0]
joins the maximum, and the call silently returns the step number 200 as a
burn-in even though the chain never fully converged. -/
theorem compute_burin_GR_silent_on_unconverged :
    compute_burin_GR [100, 200] [[2, 1], [2, 2]] 1 = 200 ∧
    (∀ x ∈ ([2, 2] : List ℚ), ¬ x ≤ 1) := by
  exact ⟨by decide, by decide⟩

/-- Mean of a list of rationals, as np.mean: sum divided by length. -/
def np_mean (l : List ℚ) : ℚ := l.sum / (l.length : ℚ)

/-- Population variance of a list of rationals, as np.var with its
default ddof = 0: the mean of the squared deviations from the mean. -/
def np_var (l : List ℚ) : ℚ := np_mean (l.map (fun x => (x - np_mean l) ^ 2))

/-- Sample array of shape (nsteps, nwalkers, ndim), as produced by the
external sampler and consumed by Utilities.gr_indicator, modelled as its
three dimensions together with an index function. -/
structure Chain3 where
  nsteps : ℕ
  nwalkers : ℕ
  ndim : ℕ
  val : ℕ → ℕ → ℕ → ℚ

/-- Time series of walker w in dimension n, the column chain[:, w, n]. -/
def walker_series (c : Chain3) (w n : ℕ) : List ℚ :=
  (List.range c.nsteps).map (fun s => c.val s w n)

/-- Embedding of Utilities.gr_indicator.  For each dimension n the source
takes x = chain[:, :, n], computes W = np.mean(np.var(x, axis=0)) (the
mean over walkers of the per-walker variance across steps), the per-walker
means and their overall mean, B = nsteps*np.sum((mean_x_per_chain -
mean_x)**2)/(nwalkers-1), var_per_W = 1 - 1/nsteps + B/(W*nsteps), and
stores ((nwalkers+1)/nwalkers)*var_per_W - (nsteps-1)/(nwalkers*nsteps). -/
def gr_indicator (c : Chain3) : List ℚ :=
  (List.range c.ndim).map (fun n =>
    let S : ℚ := c.nsteps
    let K : ℚ := c.nwalkers
    let W := np_mean ((List.range c.nwalkers).map
      (fun w => np_var (walker_series c w n)))
    let mean_x_per_chain := (List.range c.nwalkers).map
      (fun w => np_mean (walker_series c w n))
    let mean_x := np_mean mean_x_per_chain
    let B := S * ((mean_x_per_chain.map (fun m => (m - mean_x) ^ 2)).sum)
      / (K - 1)
    let var_per_W := 1 - 1 / S + B / (W * S)
    ((K + 1) / K) * var_per_W - (S - 1) / (K * S))

/-- Within-chain variance of dimension n, stated from the spec: the mean
over walkers of each walker's variance of its samples across steps. -/
def within_chain_W (c : Chain3) (n : ℕ) : ℚ :=
  np_mean ((List.range c.nwalkers).map (fun w => np_var (walker_series c w n)))

/-- Per-walker means of dimension n. -/
def walker_means (c : Chain3) (n : ℕ) : List ℚ :=
  (List.range c.nwalkers).map (fun w => np_mean (walker_series c w n))

/-- Between-chain variance of dimension n, stated from the spec:
S × (sum over walkers of (per-walker mean − overall mean)²) / (K − 1),
the overall mean being the mean of the per-walker means. -/
def between_chain_B (c : Chain3) (n : ℕ) : ℚ :=
  (c.nsteps : ℚ) * (((walker_means c n).map
    (fun m => (m - np_mean (walker_means c n)) ^ 2)).sum)
    / ((c.nwalkers : ℚ) - 1)

/-- C7: for every chain of shape (S, K, D) with S ≥ 2 and K ≥ 2 and every
dimension d < D, gr_indicator returns in position d exactly
((K+1)/K) × (1 − 1/S + B/(W·S)) − (S−1)/(K·S), with W the within-chain
variance and B the between-chain variance defined by the spec. -/
theorem gr_indicator_formula (c : Chain3) (d : ℕ)
    (_hS : 2 ≤ c.nsteps) (_hK : 2 ≤ c.nwalkers) (hd : d < c.ndim) :
    (gr_indicator c).getD d 0 =
      (((c.nwalkers : ℚ) + 1) / (c.nwalkers : ℚ)) *
        (1 - 1 / (c.nsteps : ℚ) +
          between_chain_B c d / (within_chain_W c d * (c.nsteps : ℚ))) -
      ((c.nsteps : ℚ) - 1) / ((c.nwalkers : ℚ) * (c.nsteps : ℚ)) := by
  unfold gr_indicator
  rw [List.getD_eq_getElem?_getD, List.getElem?_map, List.getElem?_range hd]
  rfl

/-- Concrete 2-step, 2-walker, 1-dimension chain used by the C7 witness. -/
def chain_example : Chain3 := ⟨2, 2, 1, fun s w _ => (s : ℚ) + 2 * (w : ℚ)⟩

/-- C7 witness: the formula theorem applied to a concrete chain of shape
(2, 2, 1) at dimension 0. -/
theorem gr_indicator_formula_witness :
    (2 ≤ chain_example.nsteps ∧ 2 ≤ chain_example.nwalkers ∧
      0 < chain_example.ndim) ∧
    (gr_indicator chain_example).getD 0 0 =
      (((chain_example.nwalkers : ℚ) + 1) / (chain_example.nwalkers : ℚ)) *
        (1 - 1 / (chain_example.nsteps : ℚ) +
          between_chain_B chain_example 0 /
            (within_chain_W chain_example 0 * (chain_example.nsteps : ℚ))) -
      ((chain_example.nsteps : ℚ) - 1) /
        ((chain_example.nwalkers : ℚ) * (chain_example.nsteps : ℚ)) :=
  ⟨⟨by decide, by decide, by decide⟩,
   gr_indicator_formula chain_example 0 (by decide) (by decide) (by decide)⟩

/-- Squared Euclidean distance between two points given as coordinate
lists; comparing squared quantities keeps the embedding rational. -/
def sq_dist (p q : List ℚ) : ℚ :=
  ((p.zip q).map (fun a => (a.1 - a.2) ^ 2)).sum

/-- Neighbor count of point p among pts within radius r, as
BallTree(pts).query_radius(pts, r, count_only=True) computes it inside
Utilities.estimate_bayes_factor: the number of stored points at distance
at most r from p; the query point itself is stored and is counted. -/
def query_radius_count (pts : List (List ℚ)) (r : ℚ) (p : List ℚ) : ℕ :=
  (pts.filter (fun q => decide (sq_dist p q ≤ r ^ 2))).length

theorem sq_dist_self (p : List ℚ) : sq_dist p p = 0 := by
  induction p with
  | nil => rfl
  | cons x t ih =>
    unfold sq_dist at ih ⊢
    simp [List.zip_cons_cons, ih]

/-- Supporting fact for C10: inside estimate_bayes_factor the query set
and the stored set are the same subsample, every point lies at distance
0 ≤ r from itself, so no point ever has a zero neighbor count.  The
degenerate zero-neighbor antecedent of the claim is therefore
unsatisfiable — np.log(count) never receives 0 — even though the source
contains no explicit guard. -/
theorem query_radius_count_pos (pts : List (List ℚ)) (r : ℚ) (hr : 0 ≤ r)
    (p : List ℚ) (hp : p ∈ pts) : 1 ≤ query_radius_count pts r p := by
  have hself : p ∈ pts.filter (fun q => decide (sq_dist p q ≤ r ^ 2)) := by
    refine List.mem_filter.mpr ⟨hp, ?_⟩
    rw [sq_dist_self]
    simpa using pow_nonneg hr 2
  have hne : pts.filter (fun q => decide (sq_dist p q ≤ r ^ 2)) ≠ [] :=
    List.ne_nil_of_mem hself
  unfold query_radius_count
  exact Nat.one_le_iff_ne_zero.mpr (by
    intro hlen
    exact hne (List.eq_nil_of_length_eq_zero hlen))

/-- Witness for the zero-neighbor supporting fact at a concrete
two-point subsample and the source's default radius. -/
theorem query_radius_count_pos_witness :
    ((0 : ℚ) ≤ 1 ∧ [(0 : ℚ), 0] ∈ [[(0 : ℚ), 0], [3, 4]]) ∧
    1 ≤ query_radius_count [[(0 : ℚ), 0], [3, 4]] 1 [(0 : ℚ), 0] :=
  ⟨⟨by decide, by decide⟩,
   query_radius_count_pos [[(0 : ℚ), 0], [3, 4]] 1 (by decide)
     [(0 : ℚ), 0] (by decide)⟩

/-- Last alphabetic character of a raw parameter token: the source loop
for j in range(len(s)) overwrites letters[i] at every alphabetic
character, so the final alphabetic character survives; none when the
token has no alphabetic character. -/
def last_alpha (s : String) : Option Char :=
  s.data.foldl (fun acc ch => if ch.isAlpha then some ch else acc) none

/-- Number of untagged slots; this is also the counter value reached
after the first assignment pass of DefineParams.fitting_params. -/
def count_untagged (letters : List (Option Char)) : ℕ :=
  letters.countP (fun o => o.isNone)

/-- First pass of DefineParams.fitting_params over the flags array:
every untagged slot (letters[i] is None) receives the current counter
value and the counter advances; tagged slots keep the np.zeros
placeholder 0.0, to be overwritten by the second pass.  A flag entry
some k models the float k stored in the numpy flags array and none
models the NaN numpy stores when the source assigns None. -/
def assign_untagged : List (Option Char) → ℕ → List (Option ℕ)
  | [], _ => []
  | none :: rest, c => some c :: assign_untagged rest (c + 1)
  | some _ :: rest, c => some 0 :: assign_untagged rest c

/-- One fancy-indexed assignment flags[inds] = v of the second pass,
where inds enumerates the positions whose letter equals ch. -/
def set_group (letters : List (Option Char)) (ch : Char) (v : Option ℕ)
    (flags : List (Option ℕ)) : List (Option ℕ) :=
  (letters.zip flags).map (fun p => if p.1 = some ch then v else p.2)

/-- Second pass of DefineParams.fitting_params: iterate over the
distinct letters; a lowercase letter ties its whole group to the current
counter value and advances the counter once; a non-lowercase (uppercase)
letter sets every slot of its group to None (numpy NaN) and leaves the
counter unchanged. -/
def apply_tags (letters : List (Option Char)) :
    List Char → List (Option ℕ) → ℕ → List (Option ℕ)
  | [], flags, _ => flags
  | u :: rest, flags, c =>
    if u.isLower then
      apply_tags letters rest (set_group letters u (some c) flags) (c + 1)
    else
      apply_tags letters rest (set_group letters u none flags) c

/-- Embedding of the constraint-map computation of
DefineParams.fitting_params (Config.py lines 220-248) on the flattened
raw token array vp_params.flatten().  Python iterates over
set(letters) in an arbitrary order, so the distinct-letter list uniq is
an explicit argument, constrained by valid_uniq below. -/
def vp_params_flags (tokens : List String) (uniq : List Char) :
    List (Option ℕ) :=
  apply_tags (tokens.map last_alpha) uniq
    (assign_untagged (tokens.map last_alpha) 0)
    (count_untagged (tokens.map last_alpha))

/-- Model of unique_letters = filter(None, list(set(letters))): a list
enumerating, without repetition and in an arbitrary order, exactly the
letters occurring among the slots. -/
def valid_uniq (letters : List (Option Char)) (uniq : List Char) : Prop :=
  uniq.Nodup ∧ (∀ ch ∈ uniq, some ch ∈ letters) ∧
    ∀ o ∈ letters, o = none ∨ ∃ ch ∈ uniq, o = some ch

instance valid_uniq_decidable (letters : List (Option Char))
    (uniq : List Char) : Decidable (valid_uniq letters uniq) := by
  unfold valid_uniq
  infer_instance

/-- Counter value at which the second pass processes letter ch: some
value when ch is lowercase and present, none otherwise (an uppercase
letter consumes no counter value). -/
def letter_index : List Char → ℕ → Char → Option ℕ
  | [], _, _ => none
  | u :: rest, c, ch =>
    if u = ch then (if u.isLower then some c else none)
    else letter_index rest (if u.isLower then c + 1 else c) ch

/-- Model of Config.py line 208: the vp_params attribute stores the raw
tokens themselves, so each slot's literal value (its numeric prefix)
stays available alongside the flags array. -/
def vp_params (tokens : List String) : List String := tokens

/-- Set of free-parameter indices actually assigned by the constraint
map: the distinct non-NaN flag values. -/
def free_index_set (tokens : List String) (uniq : List Char) : Finset ℕ :=
  ((vp_params_flags tokens uniq).filterMap id).toFinset

/-- Set of distinct lowercase tags occurring among the slots. -/
def lower_tag_set (letters : List (Option Char)) : Finset Char :=
  (letters.filterMap id).toFinset.filter (fun ch => ch.isLower = true)

theorem assign_untagged_length (L : List (Option Char)) (c : ℕ) :
    (assign_untagged L c).length = L.length := by
  induction L generalizing c with
  | nil => rfl
  | cons o rest ih => cases o <;> simp [assign_untagged, ih]

theorem set_group_length (letters : List (Option Char)) (ch : Char)
    (v : Option ℕ) (flags : List (Option ℕ)) :
    (set_group letters ch v flags).length = min letters.length flags.length := by
  simp [set_group]

theorem apply_tags_length (letters : List (Option Char)) (uniq : List Char)
    (flags : List (Option ℕ)) (c : ℕ) (hlen : flags.length = letters.length) :
    (apply_tags letters uniq flags c).length = letters.length := by
  induction uniq generalizing flags c with
  | nil => simpa [apply_tags] using hlen
  | cons u rest ih =>
    simp only [apply_tags]
    split
    · exact ih _ _ (by simp [set_group_length, hlen])
    · exact ih _ _ (by simp [set_group_length, hlen])

theorem count_untagged_take_lt {L : List (Option Char)} {i : ℕ}
    (h : L[i]? = some none) :
    count_untagged (L.take i) < count_untagged L := by
  induction L generalizing i with
  | nil => simp at h
  | cons o rest ih =>
    cases i with
    | zero =>
      simp at h
      subst h
      simp [count_untagged, List.countP_cons]
    | succ j =>
      have hj : rest[j]? = some none := by simpa using h
      have := ih hj
      cases o <;>
        simpa [count_untagged, List.take_succ_cons, List.countP_cons] using this

theorem assign_untagged_getElem_none {L : List (Option Char)} {i : ℕ}
    (h : L[i]? = some none) (c : ℕ) :
    (assign_untagged L c)[i]? = some (some (c + count_untagged (L.take i))) := by
  induction L generalizing i c with
  | nil => simp at h
  | cons o rest ih =>
    cases i with
    | zero =>
      simp at h
      subst h
      simp [assign_untagged, count_untagged]
    | succ j =>
      have hj : rest[j]? = some none := by simpa using h
      cases o with
      | none =>
        have hrec := ih hj (c + 1)
        show (some c :: assign_untagged rest (c + 1))[j + 1]? = _
        rw [List.getElem?_cons_succ, hrec]
        simp only [List.take_succ_cons, count_untagged, List.countP_cons,
          Option.isNone_none, Option.some.injEq, if_true]
        omega
      | some ch =>
        have hrec := ih hj c
        show (some 0 :: assign_untagged rest c)[j + 1]? = _
        rw [List.getElem?_cons_succ, hrec]
        simp [List.take_succ_cons, count_untagged, List.countP_cons]

theorem assign_untagged_getElem_some {L : List (Option Char)} {i : ℕ}
    {ch : Char} (h : L[i]? = some (some ch)) (c : ℕ) :
    (assign_untagged L c)[i]? = some (some 0) := by
  induction L generalizing i c with
  | nil => simp at h
  | cons o rest ih =>
    cases i with
    | zero =>
      simp at h
      subst h
      simp [assign_untagged]
    | succ j =>
      have hj : rest[j]? = some (some ch) := by simpa using h
      cases o with
      | none =>
        simpa [assign_untagged] using ih hj (c + 1)
      | some ch2 =>
        simpa [assign_untagged] using ih hj c

theorem set_group_getElem :
    ∀ (letters : List (Option Char)) (flags : List (Option ℕ)) (i : ℕ)
      (a : Option Char) (f : Option ℕ) (ch : Char) (v : Option ℕ),
      letters[i]? = some a → flags[i]? = some f →
      (set_group letters ch v flags)[i]? =
        some (if a = some ch then v else f)
  | [], _, i, _, _, _, _, ha, _ => by simp at ha
  | _ :: _, [], i, _, _, _, _, _, hf => by simp at hf
  | l :: ls, f0 :: fs, 0, a, f, ch, v, ha, hf => by
    simp at ha hf
    subst ha
    subst hf
    simp [set_group]
  | l :: ls, f0 :: fs, j + 1, a, f, ch, v, ha, hf => by
    have ha2 : ls[j]? = some a := by simpa using ha
    have hf2 : fs[j]? = some f := by simpa using hf
    have := set_group_getElem ls fs j a f ch v ha2 hf2
    simpa [set_group] using this

theorem apply_tags_getElem_untagged {letters : List (Option Char)}
    {i : ℕ} {f : Option ℕ} (uniq : List Char)
    (hi : letters[i]? = some none) :
    ∀ (flags : List (Option ℕ)) (c : ℕ), flags[i]? = some f →
      (apply_tags letters uniq flags c)[i]? = some f := by
  induction uniq with
  | nil =>
    intro flags c hf
    simpa [apply_tags] using hf
  | cons u rest ih =>
    intro flags c hf
    have hkeep : ∀ (v : Option ℕ),
        (set_group letters u v flags)[i]? = some f := by
      intro v
      rw [set_group_getElem letters flags i none f u v hi hf]
      simp
    simp only [apply_tags]
    split
    · exact ih _ _ (hkeep (some c))
    · exact ih _ _ (hkeep none)

theorem apply_tags_getElem_notmem {letters : List (Option Char)}
    {i : ℕ} {ch : Char} {f : Option ℕ} (uniq : List Char)
    (hi : letters[i]? = some (some ch)) (hch : ch ∉ uniq) :
    ∀ (flags : List (Option ℕ)) (c : ℕ), flags[i]? = some f →
      (apply_tags letters uniq flags c)[i]? = some f := by
  induction uniq with
  | nil =>
    intro flags c hf
    simpa [apply_tags] using hf
  | cons u rest ih =>
    intro flags c hf
    have hne : ch ≠ u := fun he => hch (he ▸ List.mem_cons_self u rest)
    have hrest : ch ∉ rest := fun hm => hch (List.mem_cons_of_mem u hm)
    have hkeep : ∀ (v : Option ℕ),
        (set_group letters u v flags)[i]? = some f := by
      intro v
      rw [set_group_getElem letters flags i (some ch) f u v hi hf]
      simp [hne]
    simp only [apply_tags]
    split
    · exact ih hrest _ _ (hkeep (some c))
    · exact ih hrest _ _ (hkeep none)

theorem getElem_isSome_of_lt {α : Type} {l : List α} {i : ℕ}
    (h : i < l.length) : ∃ f, l[i]? = some f :=
  ⟨l[i], List.getElem?_eq_getElem h⟩

theorem apply_tags_getElem_mem {letters : List (Option Char)}
    {uniq : List Char} {i : ℕ} {ch : Char}
    (hnd : uniq.Nodup) (hmem : ch ∈ uniq)
    (hi : letters[i]? = some (some ch)) :
    ∀ (flags : List (Option ℕ)) (c : ℕ),
      flags.length = letters.length →
      (apply_tags letters uniq flags c)[i]? = some (letter_index uniq c ch) := by
  induction uniq with
  | nil => cases hmem
  | cons u rest ih =>
    intro flags c hlen
    have hilt : i < letters.length := by
      rcases List.getElem?_eq_some.mp hi with ⟨hlt, _⟩
      exact hlt
    rcases getElem_isSome_of_lt (by rw [hlen]; exact hilt) with ⟨f, hf⟩
    have hndrest : rest.Nodup := (List.nodup_cons.mp hnd).2
    have hunotin : u ∉ rest := (List.nodup_cons.mp hnd).1
    by_cases hu : u = ch
    · subst hu
      have hset : ∀ (v : Option ℕ),
          (set_group letters u v flags)[i]? = some v := by
        intro v
        rw [set_group_getElem letters flags i (some u) f u v hi hf]
        simp
      have hsetlen : ∀ (v : Option ℕ),
          (set_group letters u v flags).length = letters.length := by
        intro v
        rw [set_group_length]
        omega
      simp only [apply_tags, letter_index, if_pos rfl]
      split
      · exact apply_tags_getElem_notmem _ hi hunotin _ _ (hset (some c))
      · exact apply_tags_getElem_notmem _ hi hunotin _ _ (hset none)
    · have hchrest : ch ∈ rest := by
        rcases List.mem_cons.mp hmem with he | hm
        · exact absurd he.symm hu
        · exact hm
      have hne2 : ch ≠ u := fun he => hu he.symm
      have hkeep : ∀ (v : Option ℕ),
          (set_group letters u v flags)[i]? = some f := by
        intro v
        rw [set_group_getElem letters flags i (some ch) f u v hi hf]
        simp [hne2]
      have hsetlen : ∀ (v : Option ℕ),
          (set_group letters u v flags).length = letters.length := by
        intro v
        rw [set_group_length]
        omega
      have hidx : letter_index (u :: rest) c ch
          = letter_index rest (if u.isLower then c + 1 else c) ch := by
        rw [letter_index, if_neg hu]
      rw [hidx]
      simp only [apply_tags]
      split
      · exact ih hndrest hchrest _ _ (hsetlen (some c))
      · exact ih hndrest hchrest _ _ (hsetlen none)

theorem letter_index_lower_mem {uniq : List Char} {ch : Char}
    (hl : ch.isLower = true) (hm : ch ∈ uniq) :
    ∀ (c : ℕ), ∃ v, letter_index uniq c ch = some v ∧ c ≤ v ∧
      v < c + uniq.countP Char.isLower := by
  induction uniq with
  | nil => cases hm
  | cons u rest ih =>
    intro c
    by_cases hu : u = ch
    · subst hu
      refine ⟨c, ?_, le_refl c, ?_⟩
      · rw [letter_index, if_pos rfl, if_pos hl]
      · rw [List.countP_cons, if_pos hl]
        omega
    · have hchrest : ch ∈ rest := by
        rcases List.mem_cons.mp hm with he | h2
        · exact absurd he.symm hu
        · exact h2
      rcases ih hchrest (if u.isLower then c + 1 else c) with ⟨v, hv, hge, hlt⟩
      refine ⟨v, ?_, ?_, ?_⟩
      · rw [letter_index, if_neg hu]
        exact hv
      · split at hge <;> omega
      · rw [List.countP_cons]
        split at hlt <;> rename_i hul
        · rw [if_pos hul]
          omega
        · rw [if_neg hul]
          omega

theorem letter_index_upper {ch : Char} (hl : ch.isLower = false) :
    ∀ (uniq : List Char) (c : ℕ), letter_index uniq c ch = none
  | [], _ => rfl
  | u :: rest, c => by
    by_cases hu : u = ch
    · subst hu
      rw [letter_index, if_pos rfl, if_neg (by rw [hl]; exact Bool.false_ne_true)]
    · rw [letter_index, if_neg hu]
      exact letter_index_upper hl rest _

theorem letter_index_ge : ∀ {uniq : List Char} {c : ℕ} {ch : Char} {v : ℕ},
    letter_index uniq c ch = some v → c ≤ v := by
  intro uniq
  induction uniq with
  | nil => intro c ch v h; cases h
  | cons u rest ih =>
    intro c ch v h
    rw [letter_index] at h
    split at h
    · split at h
      · exact (Option.some.inj h) ▸ le_refl c
      · cases h
    · have := ih h
      split at this <;> omega

theorem letter_index_lt : ∀ {uniq : List Char} {c : ℕ} {ch : Char} {v : ℕ},
    letter_index uniq c ch = some v → v < c + uniq.countP Char.isLower := by
  intro uniq
  induction uniq with
  | nil => intro c ch v h; cases h
  | cons u rest ih =>
    intro c ch v h
    rw [letter_index] at h
    rw [List.countP_cons]
    split at h
    · rename_i hu
      split at h <;> rename_i hul
      · rw [if_pos (by subst hu; exact hul)]
        have := Option.some.inj h
        omega
      · cases h
    · have := ih h
      split at this <;> rename_i hul
      · rw [if_pos hul]
        omega
      · rw [if_neg hul]
        omega

theorem letter_index_inj : ∀ {uniq : List Char} {c : ℕ} {ch ch2 : Char}
    {v v2 : ℕ}, ch ≠ ch2 → letter_index uniq c ch = some v →
    letter_index uniq c ch2 = some v2 → v ≠ v2 := by
  intro uniq
  induction uniq with
  | nil => intro c ch ch2 v v2 _ h; cases h
  | cons u rest ih =>
    intro c ch ch2 v v2 hne h h2
    rw [letter_index] at h h2
    by_cases hu : u = ch
    · rw [if_pos hu] at h
      have hu2 : ¬ u = ch2 := fun he => hne (hu ▸ he ▸ rfl)
      rw [if_neg hu2] at h2
      split at h
      · rename_i hul
        have hv : v = c := (Option.some.inj h).symm
        have := letter_index_ge h2
        rw [if_pos (hu ▸ hul)] at this
        omega
      · cases h
    · rw [if_neg hu] at h
      by_cases hu2 : u = ch2
      · rw [if_pos hu2] at h2
        split at h2
        · rename_i hul
          have hv2 : v2 = c := (Option.some.inj h2).symm
          have := letter_index_ge h
          rw [if_pos (hu2 ▸ hul)] at this
          omega
        · cases h2
      · rw [if_neg hu2] at h2
        exact ih hne h h2

theorem exists_untagged_rank : ∀ {letters : List (Option Char)} {r : ℕ},
    r < count_untagged letters →
    ∃ i, letters[i]? = some none ∧ count_untagged (letters.take i) = r := by
  intro letters
  induction letters with
  | nil =>
    intro r h
    simp [count_untagged] at h
  | cons o rest ih =>
    intro r h
    cases o with
    | none =>
      cases r with
      | zero =>
        exact ⟨0, by simp, rfl⟩
      | succ r2 =>
        have h2 : r2 < count_untagged rest := by
          rw [count_untagged]
          simp only [count_untagged, List.countP_cons, Option.isNone_none,
            if_true] at h
          omega
        rcases ih h2 with ⟨i, hi, hr⟩
        refine ⟨i + 1, by simpa using hi, ?_⟩
        simp only [List.take_succ_cons, count_untagged, List.countP_cons,
          Option.isNone_none, if_true]
        rw [count_untagged] at hr
        omega
    | some ch =>
      have h2 : r < count_untagged rest := by
        simpa [count_untagged, List.countP_cons] using h
      rcases ih h2 with ⟨i, hi, hr⟩
      refine ⟨i + 1, by simpa using hi, ?_⟩
      simp only [List.take_succ_cons, count_untagged, List.countP_cons]
      rw [count_untagged] at hr
      simpa using hr

theorem exists_letter_with_index : ∀ {uniq : List Char}, uniq.Nodup →
    ∀ {k c : ℕ}, k < uniq.countP Char.isLower →
    ∃ ch, ch ∈ uniq ∧ ch.isLower = true ∧
      letter_index uniq c ch = some (c + k) := by
  intro uniq
  induction uniq with
  | nil =>
    intro _ k c h
    simp at h
  | cons u rest ih =>
    intro hnd k c h
    have hndrest : rest.Nodup := (List.nodup_cons.mp hnd).2
    have hunotin : u ∉ rest := (List.nodup_cons.mp hnd).1
    by_cases hul : u.isLower = true
    · cases k with
      | zero =>
        refine ⟨u, List.mem_cons_self u rest, hul, ?_⟩
        rw [letter_index, if_pos rfl, if_pos hul]
        simp
      | succ k2 =>
        have h2 : k2 < rest.countP Char.isLower := by
          rw [List.countP_cons, if_pos hul] at h
          omega
        rcases ih hndrest (c := c + 1) h2 with ⟨ch, hch, hl, hli⟩
        have hne : ¬ u = ch := fun he => hunotin (he ▸ hch)
        refine ⟨ch, List.mem_cons_of_mem u hch, hl, ?_⟩
        rw [letter_index, if_neg hne, if_pos hul, hli]
        congr 1
        omega
    · have h2 : k < rest.countP Char.isLower := by
        rw [List.countP_cons, if_neg hul] at h
        omega
      rcases ih hndrest (c := c) h2 with ⟨ch, hch, hl, hli⟩
      have hne : ¬ u = ch := fun he => hunotin (he ▸ hch)
      refine ⟨ch, List.mem_cons_of_mem u hch, hl, ?_⟩
      rw [letter_index, if_neg hne, if_neg hul, hli]

theorem vp_params_flags_length (tokens : List String) (uniq : List Char) :
    (vp_params_flags tokens uniq).length = tokens.length := by
  unfold vp_params_flags
  rw [apply_tags_length _ _ _ _ (assign_untagged_length _ _)]
  simp

theorem mem_uniq_of_letter {letters : List (Option Char)} {uniq : List Char}
    (h : valid_uniq letters uniq) {ch : Char} (hm : some ch ∈ letters) :
    ch ∈ uniq := by
  rcases h.2.2 (some ch) hm with hnone | ⟨ch2, hch2, he⟩
  · cases hnone
  · cases Option.some.inj he
    exact hch2

/-- Value of the final flags array at any slot, split by the slot's tag:
an untagged slot keeps its first-pass index, the rank of the slot among
the untagged ones; a tagged slot gets letter_index of its tag. -/
theorem vp_params_flags_getElem {tokens : List String} {uniq : List Char}
    (h : valid_uniq (tokens.map last_alpha) uniq) {i : ℕ} :
    ((tokens.map last_alpha)[i]? = some none →
      (vp_params_flags tokens uniq)[i]?
        = some (some (count_untagged ((tokens.map last_alpha).take i)))) ∧
    (∀ ch : Char, (tokens.map last_alpha)[i]? = some (some ch) →
      (vp_params_flags tokens uniq)[i]?
        = some (letter_index uniq (count_untagged (tokens.map last_alpha)) ch)) := by
  constructor
  · intro hi
    unfold vp_params_flags
    have hinit := assign_untagged_getElem_none hi 0
    simp only [Nat.zero_add] at hinit
    exact apply_tags_getElem_untagged uniq hi _ _ hinit
  · intro ch hi
    have hmem : some ch ∈ tokens.map last_alpha := by
      rcases List.getElem?_eq_some.mp hi with ⟨hlt, hv⟩
      exact hv ▸ List.getElem_mem hlt
    have huniq : ch ∈ uniq := mem_uniq_of_letter h hmem
    unfold vp_params_flags
    exact apply_tags_getElem_mem h.1 huniq hi _ _
      (by rw [assign_untagged_length])

/-- C4: all slots of a lowercase tag group receive one and the same free
index, and no slot outside the group receives that index, so the free
vector has exactly one entry for the whole group. -/
theorem vp_params_flags_tied_group (tokens : List String) (uniq : List Char)
    (ch : Char) (h : valid_uniq (tokens.map last_alpha) uniq)
    (hlow : ch.isLower = true)
    (hcount : 2 ≤ (tokens.map last_alpha).count (some ch)) :
    ∃ c : ℕ,
      (∀ i : ℕ, (tokens.map last_alpha)[i]? = some (some ch) →
        (vp_params_flags tokens uniq)[i]? = some (some c)) ∧
      (∀ i : ℕ, ∀ a : Option Char, (tokens.map last_alpha)[i]? = some a →
        a ≠ some ch → (vp_params_flags tokens uniq)[i]? ≠ some (some c)) := by
  have hmem : some ch ∈ tokens.map last_alpha := by
    by_contra hnot
    rw [List.count_eq_zero_of_not_mem hnot] at hcount
    omega
  have huniq : ch ∈ uniq := mem_uniq_of_letter h hmem
  rcases letter_index_lower_mem hlow huniq
      (count_untagged (tokens.map last_alpha)) with ⟨v, hv, hge, _⟩
  refine ⟨v, ?_, ?_⟩
  · intro i hi
    rw [(vp_params_flags_getElem h).2 ch hi, hv]
  · intro i a hi hne heq
    cases a with
    | none =>
      rw [(vp_params_flags_getElem h).1 hi] at heq
      have hrank := count_untagged_take_lt
        (L := tokens.map last_alpha) (i := i) hi
      have := Option.some.inj (Option.some.inj heq)
      omega
    | some ch2 =>
      have hne2 : ch2 ≠ ch := fun he => hne (he ▸ rfl)
      rw [(vp_params_flags_getElem h).2 ch2 hi] at heq
      have hli2 := Option.some.inj heq
      by_cases hl2 : ch2.isLower = true
      · exact letter_index_inj hne2 hli2 hv rfl
      · rw [letter_index_upper (Bool.not_eq_true _ ▸ Bool.eq_false_iff.mpr hl2)]
          at hli2
        cases hli2

/-- C5: a slot carrying an uppercase tag is marked fixed (numpy NaN,
modelled none) in the constraint map, receives no free-parameter index
whatsoever, and the stored vp_params array still carries the slot's raw
token, preserving its literal numeric value for use as a constant. -/
theorem vp_params_flags_fixed_slot (tokens : List String) (uniq : List Char)
    (ch : Char) (i : ℕ) (h : valid_uniq (tokens.map last_alpha) uniq)
    (hupp : ch.isLower = false)
    (hi : (tokens.map last_alpha)[i]? = some (some ch)) :
    (vp_params_flags tokens uniq)[i]? = some none ∧
    (∀ c : ℕ, (vp_params_flags tokens uniq)[i]? ≠ some (some c)) ∧
    (vp_params tokens)[i]? = tokens[i]? := by
  have hfix : (vp_params_flags tokens uniq)[i]? = some none := by
    rw [(vp_params_flags_getElem h).2 ch hi, letter_index_upper hupp]
  refine ⟨hfix, ?_, rfl⟩
  intro c heq
  rw [hfix] at heq
  cases Option.some.inj heq

/-- Free indices assigned by the constraint map are exactly the interval
from 0 to untagged-count + lowercase-tag-count: the first pass hands out
0 .. untagged-1 and the second pass hands out one fresh index per
distinct lowercase letter. -/
theorem free_index_set_eq_range (tokens : List String) (uniq : List Char)
    (h : valid_uniq (tokens.map last_alpha) uniq) :
    free_index_set tokens uniq =
      Finset.range (count_untagged (tokens.map last_alpha) +
        uniq.countP Char.isLower) := by
  ext x
  simp only [free_index_set, List.mem_toFinset, Finset.mem_range]
  constructor
  · intro hx
    rcases List.mem_filterMap.mp hx with ⟨o, ho, hid⟩
    have ho2 : some x ∈ vp_params_flags tokens uniq := by
      cases o with
      | none => cases hid
      | some y => cases hid; exact ho
    rcases List.mem_iff_getElem?.mp ho2 with ⟨i, hi⟩
    have hilt : i < (tokens.map last_alpha).length := by
      rcases List.getElem?_eq_some.mp hi with ⟨hlt, _⟩
      rw [vp_params_flags_length] at hlt
      simpa using hlt
    rcases getElem_isSome_of_lt hilt with ⟨a, ha⟩
    cases a with
    | none =>
      rw [(vp_params_flags_getElem h).1 ha] at hi
      have hxv := Option.some.inj (Option.some.inj hi)
      have hrank := count_untagged_take_lt ha
      omega
    | some ch =>
      rw [(vp_params_flags_getElem h).2 ch ha] at hi
      have hli := Option.some.inj hi
      exact letter_index_lt hli
  · intro hx
    by_cases hxc : x < count_untagged (tokens.map last_alpha)
    · rcases exists_untagged_rank hxc with ⟨i, hi, hr⟩
      have hval := (vp_params_flags_getElem h).1 hi
      rw [hr] at hval
      have hm : some x ∈ vp_params_flags tokens uniq :=
        List.getElem?_mem hval
      exact List.mem_filterMap.mpr ⟨some x, hm, rfl⟩
    · have hk : x - count_untagged (tokens.map last_alpha)
          < uniq.countP Char.isLower := by omega
      rcases exists_letter_with_index h.1 hk with ⟨ch, hchu, _, hli⟩
      have harith : count_untagged (tokens.map last_alpha) +
          (x - count_untagged (tokens.map last_alpha)) = x := by omega
      rw [harith] at hli
      rcases List.mem_iff_getElem?.mp (h.2.1 ch hchu) with ⟨i, hi⟩
      have hval := (vp_params_flags_getElem h).2 ch hi
      rw [hli] at hval
      have hm : some x ∈ vp_params_flags tokens uniq :=
        List.getElem?_mem hval
      exact List.mem_filterMap.mpr ⟨some x, hm, rfl⟩

theorem countP_lower_eq_card {letters : List (Option Char)}
    {uniq : List Char} (h : valid_uniq letters uniq) :
    uniq.countP Char.isLower = (lower_tag_set letters).card := by
  have hset : uniq.toFinset = (letters.filterMap id).toFinset := by
    ext ch
    simp only [List.mem_toFinset, List.mem_filterMap]
    constructor
    · intro hch
      exact ⟨some ch, h.2.1 ch hch, rfl⟩
    · rintro ⟨o, ho, hid⟩
      cases o with
      | none => cases hid
      | some y => cases hid; exact mem_uniq_of_letter h ho
  rw [List.countP_eq_length_filter]
  have hnodup : (uniq.filter Char.isLower).Nodup := h.1.filter _
  rw [← List.toFinset_card_of_nodup hnodup]
  unfold lower_tag_set
  rw [← hset]
  congr 1
  ext ch
  simp [List.mem_filter]

/-- C6: the number of distinct free-parameter indices assigned equals the
number of untagged slots plus the number of distinct lowercase tags, and
this count is invariant under any permutation of the token sequence (in
particular under any permutation of the components). -/
theorem vp_params_flags_free_count (tokens tokens2 : List String)
    (uniq uniq2 : List Char)
    (h : valid_uniq (tokens.map last_alpha) uniq)
    (h2 : valid_uniq (tokens2.map last_alpha) uniq2)
    (hperm : tokens.Perm tokens2) :
    (free_index_set tokens uniq).card
      = count_untagged (tokens.map last_alpha)
        + (lower_tag_set (tokens.map last_alpha)).card ∧
    (free_index_set tokens2 uniq2).card = (free_index_set tokens uniq).card := by
  have hc1 : (free_index_set tokens uniq).card
      = count_untagged (tokens.map last_alpha) + uniq.countP Char.isLower := by
    rw [free_index_set_eq_range tokens uniq h, Finset.card_range]
  have hc2 : (free_index_set tokens2 uniq2).card
      = count_untagged (tokens2.map last_alpha) + uniq2.countP Char.isLower := by
    rw [free_index_set_eq_range tokens2 uniq2 h2, Finset.card_range]
  have hpl : (tokens.map last_alpha).Perm (tokens2.map last_alpha) :=
    hperm.map last_alpha
  have hcu : count_untagged (tokens.map last_alpha)
      = count_untagged (tokens2.map last_alpha) := by
    unfold count_untagged
    exact hpl.countP_eq _
  have htags : lower_tag_set (tokens.map last_alpha)
      = lower_tag_set (tokens2.map last_alpha) := by
    unfold lower_tag_set
    rw [List.toFinset_eq_of_perm _ _ (hpl.filterMap id)]
  constructor
  · rw [hc1, countP_lower_eq_card h]
  · rw [hc1, hc2, countP_lower_eq_card h, countP_lower_eq_card h2,
      ← hcu, ← htags]

/-- C4 witness: the tied-group theorem applied to tokens 15a, 16a, 17
with the single lowercase tag a occurring twice. -/
theorem vp_params_flags_tied_group_witness :
    (valid_uniq (["15a", "16a", "17"].map last_alpha) (['a'] : List Char) ∧
     ('a'.isLower = true) ∧
     2 ≤ (["15a", "16a", "17"].map last_alpha).count (some 'a')) ∧
    (∃ c : ℕ,
      (∀ i : ℕ, (["15a", "16a", "17"].map last_alpha)[i]? = some (some 'a') →
        (vp_params_flags ["15a", "16a", "17"] ['a'])[i]? = some (some c)) ∧
      (∀ i : ℕ, ∀ a : Option Char,
        (["15a", "16a", "17"].map last_alpha)[i]? = some a →
        a ≠ some 'a' →
        (vp_params_flags ["15a", "16a", "17"] ['a'])[i]? ≠ some (some c))) :=
  ⟨⟨by decide, by decide, by decide⟩,
   vp_params_flags_tied_group ["15a", "16a", "17"] ['a'] 'a'
     (by decide) (by decide) (by decide)⟩

/-- C5 witness: the fixed-slot theorem applied to tokens 15A, 16A, 17
with the uppercase tag A at slot 0. -/
theorem vp_params_flags_fixed_slot_witness :
    (valid_uniq (["15A", "16A", "17"].map last_alpha) (['A'] : List Char) ∧
     ('A'.isLower = false) ∧
     (["15A", "16A", "17"].map last_alpha)[0]? = some (some 'A')) ∧
    ((vp_params_flags ["15A", "16A", "17"] ['A'])[0]? = some none ∧
     (∀ c : ℕ,
       (vp_params_flags ["15A", "16A", "17"] ['A'])[0]? ≠ some (some c)) ∧
     (vp_params ["15A", "16A", "17"])[0]? = (["15A", "16A", "17"] : List String)[0]?) :=
  ⟨⟨by decide, by decide, by decide⟩,
   vp_params_flags_fixed_slot ["15A", "16A", "17"] ['A'] 'A' 0
     (by decide) (by decide) (by decide)⟩

/-- C6 witness: the free-count theorem applied to tokens 15a, 16a, 17 and
a permutation of them; two untagged-free slots would be wrong here: the
count is 1 untagged slot plus 1 distinct lowercase tag. -/
theorem vp_params_flags_free_count_witness :
    (valid_uniq (["15a", "16a", "17"].map last_alpha) (['a'] : List Char) ∧
     valid_uniq (["17", "15a", "16a"].map last_alpha) (['a'] : List Char) ∧
     (["15a", "16a", "17"] : List String).Perm ["17", "15a", "16a"]) ∧
    ((free_index_set ["15a", "16a", "17"] ['a']).card
      = count_untagged (["15a", "16a", "17"].map last_alpha)
        + (lower_tag_set (["15a", "16a", "17"].map last_alpha)).card ∧
     (free_index_set ["17", "15a", "16a"] ['a']).card
      = (free_index_set ["15a", "16a", "17"] ['a']).card) :=
  ⟨⟨by decide, by decide, by decide⟩,
   vp_params_flags_free_count ["15a", "16a", "17"] ["17", "15a", "16a"]
     ['a'] ['a'] (by decide) (by decide) (by decide)⟩

end BayesVP
